import Mathlib

/-!
Verification of the fixed-capacity embedded data-structure library
(circular_buffer.h, stack_allocator.h, memory_pool.h, fixed_hash_table.h).

The C code is shallowly embedded: each structure's backing region and
metadata become a Lean structure, each operation becomes a pure Lean
function returning its success flag together with the updated structure.
`size_t` arithmetic is modelled as `Nat` with an explicit `% USIZE`
(`USIZE = 2 ^ 64`) at every operation where the C code can wrap.
C strings are modelled as lists of byte values; a stored key field is the
full fixed-size byte field, and `cstr` extracts the C-string value
(the bytes before the first NUL).  Key characters are taken in `1..127`
where the claims quantify over keys, so that the polynomial hash does not
depend on the platform's signedness of `char`.
-/

namespace EmbeddedDS

/-- The `size_t` modulus: the code uses 64-bit `size_t` arithmetic. -/
def USIZE : Nat := 2 ^ 64

/-! ### List toolkit (small `getD`/`set` lemmas used throughout) -/

theorem getD_set_self {α : Type} {l : List α} {n : Nat} {d : α} (a : α)
    (h : n < l.length) : (l.set n a).getD n d = a := by
  induction l generalizing n with
  | nil => simp at h
  | cons x xs ih =>
    cases n with
    | zero => simp [List.set, List.getD]
    | succ m =>
      simp only [List.set, List.getD_cons_succ]
      exact ih (by simpa using h)

theorem getD_set_ne {α : Type} {l : List α} {n m : Nat} {d : α} (a : α)
    (h : n ≠ m) : (l.set n a).getD m d = l.getD m d := by
  induction l generalizing n m with
  | nil => simp [List.set]
  | cons x xs ih =>
    cases n with
    | zero =>
      cases m with
      | zero => exact absurd rfl h
      | succ k => simp [List.set]
    | succ n' =>
      cases m with
      | zero => simp [List.set]
      | succ k =>
        simp only [List.set, List.getD_cons_succ]
        exact ih (by omega)

theorem getD_append_left {α : Type} {l₁ l₂ : List α} {i : Nat} {d : α}
    (h : i < l₁.length) : (l₁ ++ l₂).getD i d = l₁.getD i d := by
  induction l₁ generalizing i with
  | nil => simp at h
  | cons x xs ih =>
    cases i with
    | zero => simp
    | succ j =>
      simp only [List.cons_append, List.getD_cons_succ]
      exact ih (by simpa using h)

theorem getD_append_length {α : Type} {l₁ l₂ : List α} {d : α} :
    (l₁ ++ l₂).getD l₁.length d = l₂.getD 0 d := by
  induction l₁ with
  | nil => simp
  | cons x xs ih => simpa using ih

theorem getD_mem_of_lt {α : Type} {l : List α} {i : Nat} {d : α}
    (h : i < l.length) : l.getD i d ∈ l := by
  induction l generalizing i with
  | nil => simp at h
  | cons x xs ih =>
    cases i with
    | zero => simp
    | succ j =>
      simp only [List.getD_cons_succ]
      exact List.mem_cons_of_mem _ (ih (by simpa using h))

theorem getD_replicate {α : Type} {n i : Nat} {a d : α} (h : i < n) :
    (List.replicate n a).getD i d = a := by
  induction n generalizing i with
  | zero => omega
  | succ m ih =>
    cases i with
    | zero => simp [List.replicate]
    | succ j =>
      simp only [List.replicate, List.getD_cons_succ]
      exact ih (by omega)

theorem range_map_getD (l : List Nat) :
    (List.range l.length).map (fun i => l.getD i 0) = l := by
  induction l with
  | nil => simp
  | cons x xs ih =>
    rw [List.length_cons, List.range_succ_eq_map, List.map_cons, List.map_map]
    simp only [List.getD_cons_zero, Function.comp]
    congr 1

/-! ### RingQueue — `circular_buffer.h`

```
typedef struct { uint8_t *buffer; size_t size; size_t head; size_t tail;
                 size_t count; } circular_buffer_t;
```
The caller-supplied byte region becomes the `buffer` list (its contents are
whatever the caller had there; `cb_init` does not clear it).  Stored bytes
are reduced `% 256` because the cells are `uint8_t`. -/

structure circular_buffer where
  buffer : List Nat
  size : Nat
  head : Nat
  tail : Nat
  count : Nat
deriving DecidableEq

/-- Model of `cb_init`: binds the caller's region and zeroes the cursors. -/
def cb_init (buffer : List Nat) (size : Nat) : circular_buffer :=
  ⟨buffer, size, 0, 0, 0⟩

def cb_is_empty (cb : circular_buffer) : Bool := cb.count == 0

def cb_is_full (cb : circular_buffer) : Bool := cb.count == cb.size

/-- Model of `cb_write`: fail if full, else store at `head`, advance `head` mod size,
bump `count`. -/
def cb_write (cb : circular_buffer) (data : Nat) : Bool × circular_buffer :=
  if cb_is_full cb then (false, cb)
  else (true, { cb with
                  buffer := cb.buffer.set cb.head (data % 256),
                  head := (cb.head + 1) % cb.size,
                  count := cb.count + 1 })

/-- Model of `cb_read`: fail if empty, else return byte at `tail`, advance `tail`
mod size, decrement `count`. -/
def cb_read (cb : circular_buffer) : Option Nat × circular_buffer :=
  if cb_is_empty cb then (none, cb)
  else (some (cb.buffer.getD cb.tail 0),
        { cb with tail := (cb.tail + 1) % cb.size, count := cb.count - 1 })

def cb_available_space (cb : circular_buffer) : Nat := cb.size - cb.count

def cb_data_count (cb : circular_buffer) : Nat := cb.count

/-- Iterated `cb_write` over a list; the flag is the conjunction of all the
individual success flags. -/
def cb_writeAll : circular_buffer → List Nat → Bool × circular_buffer
  | cb, [] => (true, cb)
  | cb, w :: ws =>
      let r := cb_write cb w
      let rs := cb_writeAll r.2 ws
      (r.1 && rs.1, rs.2)

/-- Performs `n` iterated `cb_read`s, collecting each read's result in order. -/
def cb_readAll : circular_buffer → Nat → List (Option Nat) × circular_buffer
  | cb, 0 => ([], cb)
  | cb, n + 1 =>
      let r := cb_read cb
      let rs := cb_readAll r.2 n
      (r.1 :: rs.1, rs.2)

/-! ### ArenaAllocator — `stack_allocator.h`

```
typedef struct { uint8_t *memory; size_t size; size_t top; } stack_allocator_t;
```
The allocator never reads or writes the backing region, only its offsets;
a returned handle is the byte offset of the allocated sub-region.
`sa->top + bytes` is a `size_t` sum, so it is taken `% USIZE`. -/

structure stack_allocator where
  size : Nat
  top : Nat
deriving DecidableEq

def stack_init (size : Nat) : stack_allocator := ⟨size, 0⟩

/-- Model of `stack_alloc`: `NULL` iff `top + bytes > size` (in `size_t` arithmetic),
else return the old `top` and advance it by `bytes`. -/
def stack_alloc (sa : stack_allocator) (bytes : Nat) : Option Nat × stack_allocator :=
  if (sa.top + bytes) % USIZE > sa.size then (none, sa)
  else (some sa.top, { sa with top := (sa.top + bytes) % USIZE })

/-- Model of `stack_free_to`: rewind `top` to the offset denoted by the pointer. -/
def stack_free_to (sa : stack_allocator) (p : Nat) : stack_allocator :=
  { sa with top := p }

/-- Model of `stack_reset`: rewind `top` to 0. -/
def stack_reset (sa : stack_allocator) : stack_allocator :=
  { sa with top := 0 }

/-! ### PoolAllocator — `memory_pool.h`

```
typedef struct { uint8_t *memory; size_t total_size; size_t block_size;
                 void *free_list; } memory_pool_t;
```
The pool stores a next-pointer in the first word of every free block.
The backing region is modelled as a list `links`, indexed by byte offset,
where position `o` holds the word the code stored at offset `o`
(`some o'` = pointer to offset `o'`, `none` = `NULL`).  A block handle is
its byte offset.  This treats each stored word as one cell at the block's
start offset; aliasing of overlapping word writes (possible only when the
documented `block_size ≥ pointer size` precondition is violated) is not
modelled.  Writes outside the region are dropped (`List.set` out of range),
where the C code would corrupt unrelated memory. -/

structure memory_pool where
  total_size : Nat
  block_size : Nat
  free_list : Option Nat
  links : List (Option Nat)
deriving DecidableEq

/-- The `size_t` subtraction `a - b` (for `b ≤ USIZE`), which wraps around. -/
def szsub (a b : Nat) : Nat := (a + USIZE - b) % USIZE

/-- Model of `mp_init`: `num_blocks = total_size / block_size`; link block `i` to
block `i+1` for `i < num_blocks - 1` (a `size_t` subtraction: for
`num_blocks = 0` the C loop bound wraps to `2^64 - 1`), write `NULL` into
the last block, and point `free_list` at offset 0. -/
def mp_init (memory : List (Option Nat)) (total_size block_size : Nat) : memory_pool :=
  let num_blocks := total_size / block_size
  let linked := (List.range (szsub num_blocks 1)).foldl
      (fun l i => l.set (i * block_size) (some ((i + 1) * block_size))) memory
  ⟨total_size, block_size, some 0,
   linked.set (szsub num_blocks 1 * block_size) none⟩

/-- Number of link-field writes `mp_init` performs: the loop runs
`num_blocks - 1` times (as `size_t`), plus the final `NULL` write. -/
def mp_init_link_steps (total_size block_size : Nat) : Nat :=
  szsub (total_size / block_size) 1 + 1

/-- Model of `mp_alloc`: pop the head of the free chain; the new head is the word
stored in the popped block. -/
def mp_alloc (mp : memory_pool) : Option Nat × memory_pool :=
  match mp.free_list with
  | none => (none, mp)
  | some b => (some b, { mp with free_list := mp.links.getD b none })

/-- Model of `mp_free`: write the old head into the returned block's link field and
make the block the new head. -/
def mp_free (mp : memory_pool) (block : Nat) : memory_pool :=
  { mp with links := mp.links.set block mp.free_list, free_list := some block }

/-! ### FixedMap — `fixed_hash_table.h`

```
typedef struct { uint8_t *memory; size_t table_size; size_t max_key_length;
                 size_t value_size; size_t bucket_size; } fixed_hash_table_t;
```
The flat region is `table_size` buckets of stride
`bucket_size = max_key_length + value_size + 1`; every access in the code
is within one bucket's key field (`max_key_length` bytes), value field
(`value_size` bytes) or occupancy flag (1 byte), so the region is modelled
as a list of buckets with those three fields (`bucket_size` is determined
by the other fields and carried implicitly).  A C string is a byte list;
`cstr` is the string value of a field (bytes before the first NUL). -/

structure ht_bucket where
  key : List Nat
  val : List Nat
  occ : Nat
deriving DecidableEq

structure fixed_hash_table where
  table_size : Nat
  max_key_length : Nat
  value_size : Nat
  buckets : List ht_bucket
deriving DecidableEq

/-- The C-string value of a byte field: everything before the first NUL. -/
def cstr (bs : List Nat) : List Nat := bs.takeWhile (fun c => c != 0)

/-- Equality test `strcmp(a, b) == 0` on two byte fields holding C strings. -/
def str_eq (a b : List Nat) : Bool := cstr a == cstr b

/-- Model of `ht_init`: `memset` the whole region to 0 — every bucket starts with
zeroed key/value bytes and a cleared occupancy flag. -/
def ht_init (table_size max_key_length value_size : Nat) : fixed_hash_table :=
  ⟨table_size, max_key_length, value_size,
   List.replicate table_size
     ⟨List.replicate max_key_length 0, List.replicate value_size 0, 0⟩⟩

/-- Model of `hash_function`: `hash = hash * 31 + *key` over the key's characters
(the `while (*key)` loop stops at the NUL), in `size_t` arithmetic. -/
def hash_function (key : List Nat) : Nat :=
  (cstr key).foldl (fun h c => (h * 31 + c) % USIZE) 0

/-- Key field contents after
`strncpy(bucket, key, max_key_length - 1); bucket[max_key_length - 1] = 0`:
the first `max_key_length - 1` characters of the key, NUL-padded to the
full `max_key_length`-byte field. -/
def key_field (max_key_length : Nat) (key : List Nat) : List Nat :=
  (cstr key).take (max_key_length - 1) ++
    List.replicate
      (max_key_length - ((cstr key).take (max_key_length - 1)).length) 0

/-- Value field contents after `memcpy(value_location, value, value_size)`
(the caller must supply at least `value_size` bytes; shorter input is
zero-extended here where the C code would read past the buffer). -/
def val_field (value_size : Nat) (value : List Nat) : List Nat :=
  value.take value_size ++ List.replicate (value_size - value.length) 0

/-- The bucket at index `i` (the code computes
`memory + i * bucket_size`; indices are always `< table_size`). -/
def ht_bucket_at (ht : fixed_hash_table) (i : Nat) : ht_bucket :=
  ht.buckets.getD i ⟨[], [], 0⟩

/-- Probe-loop guard shared by `ht_put`/`ht_get`/`ht_remove`:
at probe step `l`, the bucket is unoccupied or its stored key matches. -/
def ht_slot_ok (ht : fixed_hash_table) (key : List Nat) (index l : Nat) : Bool :=
  (ht_bucket_at ht ((index + l) % ht.table_size)).occ == 0 ||
    str_eq (ht_bucket_at ht ((index + l) % ht.table_size)).key key

/-- The linear-probing loop common to `ht_put`, `ht_get` and `ht_remove`:
starting from probe step `i`, return the index of the first bucket (in
probe order `index, index+1, …` mod `table_size`, at most `table_size`
steps) that is unoccupied or key-matching, or `none` after `table_size`
steps.  The structural `fuel` argument counts the loop iterations still
allowed (`table_size - i` at entry), so the recursion mirrors the bounded
`for` loop. -/
def ht_probe_loop (ht : fixed_hash_table) (key : List Nat) (index : Nat) :
    Nat → Nat → Option Nat
  | _, 0 => none
  | i, fuel + 1 =>
    if i < ht.table_size then
      if ht_slot_ok ht key index i then some ((index + i) % ht.table_size)
      else ht_probe_loop ht key index (i + 1) fuel
    else none

def ht_probe (ht : fixed_hash_table) (key : List Nat) (index i : Nat) : Option Nat :=
  ht_probe_loop ht key index i (ht.table_size - i)

/-- Number of loop iterations the probe performs. -/
def ht_probe_steps_loop (ht : fixed_hash_table) (key : List Nat) (index : Nat) :
    Nat → Nat → Nat
  | _, 0 => 0
  | i, fuel + 1 =>
    if i < ht.table_size then
      if ht_slot_ok ht key index i then 1
      else 1 + ht_probe_steps_loop ht key index (i + 1) fuel
    else 0

def ht_probe_steps (ht : fixed_hash_table) (key : List Nat) (index i : Nat) : Nat :=
  ht_probe_steps_loop ht key index i (ht.table_size - i)

/-- The bucket contents `ht_put` writes on success: truncated key,
copied value, occupancy flag 1. -/
def ht_written_bucket (ht : fixed_hash_table) (key value : List Nat) : ht_bucket :=
  ⟨key_field ht.max_key_length key, val_field ht.value_size value, 1⟩

/-- Overwrite the bucket at index `ci` (the store through
`memory + ci * bucket_size`). -/
def ht_set_bucket (ht : fixed_hash_table) (ci : Nat) (b : ht_bucket) : fixed_hash_table :=
  { ht with buckets := ht.buckets.set ci b }

/-- Model of `ht_put`: probe for the first unoccupied-or-matching bucket; on a hit
store the (truncated) key, the value and the flag there; `false` if the
whole probe sequence is exhausted. -/
def ht_put (ht : fixed_hash_table) (key value : List Nat) : Bool × fixed_hash_table :=
  match ht_probe ht key (hash_function key % ht.table_size) 0 with
  | some ci => (true, ht_set_bucket ht ci (ht_written_bucket ht key value))
  | none => (false, ht)

/-- Model of `ht_get`: probe the same sequence; stop with "not found" at the first
unoccupied bucket, return the stored value at the first key match.  (At
the probe's hit, `occ ≠ 0` forces the key match, so returning the stored
value mirrors the source's `strcmp` branch.)  The structure itself is
never mutated. -/
def ht_get (ht : fixed_hash_table) (key : List Nat) : Option (List Nat) :=
  match ht_probe ht key (hash_function key % ht.table_size) 0 with
  | some ci => if (ht_bucket_at ht ci).occ == 0 then none else some (ht_bucket_at ht ci).val
  | none => none

/-- Model of `ht_remove`: same probe/stop rule; on a key match clear only the
occupancy flag (key/value bytes stay in place). -/
def ht_remove (ht : fixed_hash_table) (key : List Nat) : Bool × fixed_hash_table :=
  match ht_probe ht key (hash_function key % ht.table_size) 0 with
  | some ci =>
      if (ht_bucket_at ht ci).occ == 0 then (false, ht)
      else (true, ht_set_bucket ht ci { ht_bucket_at ht ci with occ := 0 })
  | none => (false, ht)

/-- Model of `ht_contains`: `ht_get` discarding the value. -/
def ht_contains (ht : fixed_hash_table) (key : List Nat) : Bool :=
  (ht_get ht key).isSome

/-- Number of occupied buckets. -/
def ht_occupancy (ht : fixed_hash_table) : Nat :=
  ht.buckets.countP (fun b => b.occ != 0)

/-- Valid key argument: a C string of non-NUL characters; characters are
kept `< 128` so the model's hash agrees with the code regardless of the
platform's `char` signedness. -/
def ValidKey (k : List Nat) : Prop := ∀ c ∈ k, 0 < c ∧ c < 128

instance : DecidablePred ValidKey := fun k =>
  List.decidableBAll (fun c => 0 < c ∧ c < 128) k

/-! ## RingQueue FIFO (claim C1) -/

/-- The state of a queue of capacity `c` after the writes `pre` all
succeeded, starting from a fresh queue: cursors, count, and the written
prefix of the backing region. -/
def cb_after_writes (c : Nat) (pre : List Nat) (cb : circular_buffer) : Prop :=
  cb.size = c ∧ cb.buffer.length = c ∧ cb.head = pre.length % c ∧
  cb.tail = 0 ∧ cb.count = pre.length ∧
  ∀ i, i < pre.length → cb.buffer.getD i 0 = pre.getD i 0 % 256

theorem cb_writeAll_spec (c : Nat) :
    ∀ ws pre cb, cb_after_writes c pre cb → pre.length + ws.length ≤ c →
      (cb_writeAll cb ws).1 = true ∧
      cb_after_writes c (pre ++ ws) (cb_writeAll cb ws).2 := by
  intro ws
  induction ws with
  | nil =>
    intro pre cb h _
    simpa [cb_writeAll] using h
  | cons w ws ih =>
    intro pre cb h hlen
    obtain ⟨hsize, hblen, hhead, htail, hcount, hbuf⟩ := h
    have hplt : pre.length < c := by
      simp only [List.length_cons] at hlen; omega
    have hfull : cb_is_full cb = false := by
      simp only [cb_is_full, hcount, hsize, beq_eq_false_iff_ne, ne_eq]
      omega
    have hheadv : cb.head = pre.length := by
      rw [hhead, Nat.mod_eq_of_lt hplt]
    have hw : cb_write cb w =
        (true, { cb with buffer := cb.buffer.set cb.head (w % 256),
                         head := (cb.head + 1) % cb.size,
                         count := cb.count + 1 }) := by
      simp [cb_write, hfull]
    have hafter : cb_after_writes c (pre ++ [w])
        { cb with buffer := cb.buffer.set cb.head (w % 256),
                  head := (cb.head + 1) % cb.size,
                  count := cb.count + 1 } := by
      refine ⟨hsize, by simpa using hblen, ?_, htail, by simp [hcount], ?_⟩
      · show (cb.head + 1) % cb.size = (pre ++ [w]).length % c
        rw [hheadv, hsize]
        simp
      · intro i hi
        simp only [List.length_append, List.length_cons, List.length_nil] at hi
        rcases Nat.lt_or_ge i pre.length with hlt | hge
        · rw [hheadv, getD_set_ne _ (by omega), hbuf i hlt,
            getD_append_left hlt]
        · have hieq : i = pre.length := by omega
          subst hieq
          rw [hheadv, getD_set_self _ (by omega), getD_append_length]
          simp
    have hlen' : (pre ++ [w]).length + ws.length ≤ c := by
      simp only [List.length_append, List.length_cons, List.length_nil,
        List.length_cons] at hlen ⊢
      omega
    have hrec := ih (pre ++ [w]) _ hafter hlen'
    have hunfold : cb_writeAll cb (w :: ws) =
        ((cb_write cb w).1 && (cb_writeAll (cb_write cb w).2 ws).1,
         (cb_writeAll (cb_write cb w).2 ws).2) := rfl
    rw [hunfold, hw]
    refine ⟨?_, ?_⟩
    · simpa using hrec.1
    · simpa [List.append_assoc] using hrec.2

theorem cb_readAll_spec (c : Nat) :
    ∀ k cb t, cb.size = c → cb.buffer.length = c → cb.tail = t →
      cb.count = k → t + k ≤ c →
      (cb_readAll cb k).1 =
        (List.range k).map (fun i => some (cb.buffer.getD (t + i) 0)) := by
  intro k
  induction k with
  | zero => intro cb t _ _ _ _ _; simp [cb_readAll]
  | succ k ih =>
    intro cb t hsize hblen htail hcount hlt
    have hne : cb_is_empty cb = false := by
      simp [cb_is_empty, hcount]
    have hr : cb_read cb =
        (some (cb.buffer.getD cb.tail 0),
         { cb with tail := (cb.tail + 1) % cb.size, count := cb.count - 1 }) := by
      simp [cb_read, hne]
    have hunfold : cb_readAll cb (k + 1) =
        ((cb_read cb).1 :: (cb_readAll (cb_read cb).2 k).1,
         (cb_readAll (cb_read cb).2 k).2) := rfl
    have hrange : (List.range (k + 1)).map
          (fun i => some (cb.buffer.getD (t + i) 0)) =
        some (cb.buffer.getD t 0) ::
          (List.range k).map (fun i => some (cb.buffer.getD (t + 1 + i) 0)) := by
      rw [List.range_succ_eq_map, List.map_cons, List.map_map]
      refine congrArg₂ _ (by simp) ?_
      refine List.map_congr_left ?_
      intro i _
      simp only [Function.comp_apply]
      congr 2
      omega
    rw [hunfold, hr, hrange, htail]
    refine congrArg₂ _ rfl ?_
    rcases Nat.eq_zero_or_pos k with hk | hk
    · subst hk; simp [cb_readAll]
    · have ht1 : t + 1 < c := by omega
      have hmod : (cb.tail + 1) % cb.size = t + 1 := by
        rw [htail, hsize, Nat.mod_eq_of_lt ht1]
      exact ih { cb with tail := (t + 1) % cb.size, count := cb.count - 1 } (t + 1) (by simp [hsize]) (by simp [hblen]) (by rw [hsize] at hmod ⊢; rw [htail] at hmod; exact hmod) (by simp [hcount]) (by omega)

/-- C1: from a freshly initialized queue of capacity `c ≥ 1`, a sequence of
`n ≤ c` writes all succeeds, and the following `n` reads each succeed and
return the written bytes in FIFO order. -/
theorem C1_ringqueue_fifo (c : Nat) (buf0 ws : List Nat)
    (_hc : 1 ≤ c) (hbuf : buf0.length = c) (hn : ws.length ≤ c)
    (hbytes : ∀ w ∈ ws, w < 256) :
    (cb_writeAll (cb_init buf0 c) ws).1 = true ∧
    (cb_readAll (cb_writeAll (cb_init buf0 c) ws).2 ws.length).1 = ws.map some := by
  have h0 : cb_after_writes c [] (cb_init buf0 c) :=
    ⟨rfl, hbuf, by simp [cb_init], rfl, rfl, by simp⟩
  have hmain := cb_writeAll_spec c ws [] (cb_init buf0 c) h0 (by simpa using hn)
  simp only [List.nil_append] at hmain
  obtain ⟨hok, hsize, hblen, hhead, htail, hcount, hbufw⟩ := hmain
  refine ⟨hok, ?_⟩
  have hr := cb_readAll_spec c ws.length _ 0 hsize hblen htail hcount
    (by omega)
  rw [hr]
  have hstep : ∀ i ∈ List.range ws.length,
      some ((cb_writeAll (cb_init buf0 c) ws).2.buffer.getD (0 + i) 0) =
      some (ws.getD i 0) := by
    intro i hi
    rw [List.mem_range] at hi
    rw [Nat.zero_add, hbufw i hi,
      Nat.mod_eq_of_lt (hbytes _ (getD_mem_of_lt hi))]
  rw [List.map_congr_left hstep]
  have : (fun i => some (ws.getD i 0)) = some ∘ (fun i => ws.getD i 0) := rfl
  rw [this, ← List.map_map, range_map_getD]

/-- Witness for C1: capacity 5, writes 42 then 100 (the spec's example). -/
theorem C1_ringqueue_fifo_witness :
    (cb_writeAll (cb_init (List.replicate 5 0) 5) [42, 100]).1 = true ∧
    (cb_readAll (cb_writeAll (cb_init (List.replicate 5 0) 5) [42, 100]).2
      [42, 100].length).1 = [42, 100].map some :=
  C1_ringqueue_fifo 5 (List.replicate 5 0) [42, 100]
    (by decide) (by decide) (by decide) (by decide)

/-! ## ArenaAllocator `alloc` contract (claim C5)

The claim reads the guard `top + n > capacity` over unbounded integers,
but the code computes `sa->top + bytes` in `size_t`: when `top + n ≥ 2^64`
the sum wraps, the comparison is performed on the wrapped value, and an
allocation the claim says must fail can succeed. -/

/-- Counterexample to C5 as stated: `top = 1`, `capacity = 100`,
`n = 2^64 - 1`.  Unbounded, `top + n > capacity`, so the claim requires
failure; the code wraps `1 + (2^64 - 1)` to `0 ≤ 100` and succeeds,
returning offset 1 and leaving `top = 0`. -/
theorem C5_counterexample :
    stack_alloc ⟨100, 1⟩ (2 ^ 64 - 1) = (some 1, ⟨100, 0⟩) ∧
    100 < 1 + (2 ^ 64 - 1) := by
  constructor
  · decide
  · decide

/-- C5 amended: `alloc(n)` fails exactly when `(top + n) mod 2^64`
exceeds `capacity` (the `size_t` value of `top + n`); otherwise it returns
the handle `top` (denoting `[top, top+n)`) and the new top is
`(top + n) mod 2^64`. -/
theorem C5_arena_alloc_spec (sa : stack_allocator) (n : Nat) :
    ((sa.top + n) % USIZE > sa.size → stack_alloc sa n = (none, sa)) ∧
    ((sa.top + n) % USIZE ≤ sa.size →
      stack_alloc sa n = (some sa.top, ⟨sa.size, (sa.top + n) % USIZE⟩)) := by
  constructor
  · intro h
    simp [stack_alloc, h]
  · intro h
    unfold stack_alloc
    split
    next hc => exact absurd hc (by omega)
    next => rfl

/-- Witness for C5 (both branches at concrete inputs). -/
theorem C5_arena_alloc_spec_witness :
    stack_alloc ⟨10, 8⟩ 5 = (none, ⟨10, 8⟩) ∧
    stack_alloc ⟨10, 8⟩ 2 = (some 8, ⟨10, 10⟩) :=
  ⟨(C5_arena_alloc_spec ⟨10, 8⟩ 5).1 (by decide),
   (C5_arena_alloc_spec ⟨10, 8⟩ 2).2 (by decide)⟩

/-! ## Failure leaves the state untouched (claim C4)

Each failing operation returns its failure flag together with the input
structure unchanged (metadata and backing-region model).  `ht_get` and
`ht_contains` are embedded as pure functions — the code writes only into
the caller's output buffer, never into the table — so only the mutating
operations need a statement. -/

/-- C4: on failure, `cb_write`, `cb_read`, `stack_alloc`, `mp_alloc`,
`ht_put` and `ht_remove` leave the structure exactly as it was. -/
theorem C4_failure_no_state_change :
    (∀ cb d, cb_is_full cb = true → cb_write cb d = (false, cb)) ∧
    (∀ cb, cb_is_empty cb = true → cb_read cb = (none, cb)) ∧
    (∀ sa n, (sa.top + n) % USIZE > sa.size → stack_alloc sa n = (none, sa)) ∧
    (∀ mp, mp.free_list = none → mp_alloc mp = (none, mp)) ∧
    (∀ ht k v, (ht_put ht k v).1 = false → (ht_put ht k v).2 = ht) ∧
    (∀ ht k, (ht_remove ht k).1 = false → (ht_remove ht k).2 = ht) := by
  refine ⟨?_, ?_, ?_, ?_, ?_, ?_⟩
  · intro cb d h
    simp [cb_write, h]
  · intro cb h
    simp [cb_read, h]
  · intro sa n h
    simp [stack_alloc, h]
  · intro mp h
    simp [mp_alloc, h]
  · intro ht k v h
    unfold ht_put at h ⊢
    generalize ht_probe ht k (hash_function k % ht.table_size) 0 = r at h ⊢
    rcases r with _ | ci
    · rfl
    · simp at h
  · intro ht k h
    unfold ht_remove at h ⊢
    generalize ht_probe ht k (hash_function k % ht.table_size) 0 = r at h ⊢
    rcases r with _ | ci
    · rfl
    · by_cases ho : ((ht_bucket_at ht ci).occ == 0) = true
      · dsimp only at h ⊢
        rw [if_pos ho]
      · dsimp only at h ⊢
        rw [if_neg ho] at h
        simp at h

/-- Witness for C4: each failing operation evaluated at a concrete state. -/
theorem C4_failure_no_state_change_witness :
    cb_write ⟨[7], 1, 0, 0, 1⟩ 5 = (false, ⟨[7], 1, 0, 0, 1⟩) ∧
    cb_read ⟨[7], 1, 0, 0, 0⟩ = (none, ⟨[7], 1, 0, 0, 0⟩) ∧
    stack_alloc ⟨10, 5⟩ 6 = (none, ⟨10, 5⟩) ∧
    mp_alloc ⟨0, 0, none, []⟩ = (none, ⟨0, 0, none, []⟩) ∧
    (ht_put (ht_put (ht_init 1 2 1) [97] [5]).2 [99] [6]).2 =
      (ht_put (ht_init 1 2 1) [97] [5]).2 ∧
    (ht_remove (ht_put (ht_init 1 2 1) [97] [5]).2 [99]).2 =
      (ht_put (ht_init 1 2 1) [97] [5]).2 :=
  ⟨C4_failure_no_state_change.1 _ 5 (by decide),
   C4_failure_no_state_change.2.1 _ (by decide),
   C4_failure_no_state_change.2.2.1 ⟨10, 5⟩ 6 (by decide),
   C4_failure_no_state_change.2.2.2.1 _ (by decide),
   C4_failure_no_state_change.2.2.2.2.1 _ [99] [6] (by decide),
   C4_failure_no_state_change.2.2.2.2.2 _ [99] (by decide)⟩

/-! ## PoolAllocator LIFO reuse (claim C8) -/

/-- C8: for a pool with at least one block, whenever `alloc` succeeds and
returns block `b`, `free(b)` followed by another `alloc` returns exactly
the same block `b`: `free` pushes `b` on the front of the free chain and
the next `alloc` pops it. -/
theorem C8_pool_lifo_reuse (mp : memory_pool) (b : Nat) (mp1 : memory_pool)
    (_hblocks : 1 ≤ mp.total_size / mp.block_size)
    (_h : mp_alloc mp = (some b, mp1)) :
    (mp_alloc (mp_free mp1 b)).1 = some b := rfl

/-- Witness for C8: a 64-byte pool of 32-byte blocks (2 blocks);
the first `alloc` returns block 0, and `free`/`alloc` returns it again. -/
theorem C8_pool_lifo_reuse_witness :
    (mp_alloc (mp_free (mp_alloc (mp_init (List.replicate 64 none) 64 32)).2 0)).1 =
      some 0 :=
  C8_pool_lifo_reuse (mp_init (List.replicate 64 none) 64 32) 0
    (mp_alloc (mp_init (List.replicate 64 none) 64 32)).2 (by decide) (by decide)

/-! ## Step bounds and termination (claim C9)

Every embedded operation is a total function (structural recursion), so
each terminates on all inputs.  The quantitative content is the probe
bound for the FixedMap operations and the link-write count of `mp_init`.
The claim's "exactly `num_blocks` linking steps" fails for
`num_blocks = 0` (capacity < block size): the C loop bound
`num_blocks - 1` is a `size_t` subtraction, which wraps to `2^64 - 1`. -/

theorem ht_probe_steps_loop_le (ht : fixed_hash_table) (key : List Nat)
    (index : Nat) : ∀ fuel i, ht_probe_steps_loop ht key index i fuel ≤ fuel := by
  intro fuel
  induction fuel with
  | zero => intro i; simp [ht_probe_steps_loop]
  | succ fuel ih =>
    intro i
    unfold ht_probe_steps_loop
    split
    · split
      · omega
      · have := ih (i + 1)
        omega
    · omega

/-- Probe iterations performed by `ht_put`/`ht_get`/`ht_remove`/
`ht_contains` on `key` (all run the same probe loop from step 0). -/
def ht_op_steps (ht : fixed_hash_table) (key : List Nat) : Nat :=
  ht_probe_steps ht key (hash_function key % ht.table_size) 0

/-- Counterexample to C9 as stated: with `capacity = 0`, `block_size = 1`
we have `num_blocks = 0`, and `mp_init` performs `2^64` link writes
(`2^64 - 1` wrapped loop iterations plus the final `NULL` write), not
`num_blocks = 0`. -/
theorem C9_counterexample :
    mp_init_link_steps 0 1 = 2 ^ 64 ∧ (0 : Nat) / 1 = 0 :=
  ⟨by decide, by decide⟩

/-- C9 amended: every FixedMap operation performs at most `table_size`
probe iterations, and `mp_init` performs exactly
`num_blocks = capacity / block_size` link writes provided
`num_blocks ≥ 1` (and the capacity is a representable `size_t`). -/
theorem C9_step_bounds :
    (∀ ht key, ht_op_steps ht key ≤ ht.table_size) ∧
    (∀ total bs, 1 ≤ total / bs → total < USIZE →
      mp_init_link_steps total bs = total / bs) := by
  constructor
  · intro ht key
    have h := ht_probe_steps_loop_le ht key (hash_function key % ht.table_size)
      (ht.table_size - 0) 0
    calc ht_op_steps ht key ≤ ht.table_size - 0 := h
    _ ≤ ht.table_size := by omega
  · intro total bs h1 h2
    have hnb : total / bs ≤ total := Nat.div_le_self _ _
    unfold mp_init_link_steps szsub
    have heq : total / bs + USIZE - 1 = USIZE + (total / bs - 1) := by omega
    rw [heq, Nat.add_mod_left, Nat.mod_eq_of_lt (by omega)]
    omega

/-- Witness for C9: probe bound at the spec's example table, and the link
count of a two-block pool. -/
theorem C9_step_bounds_witness :
    ht_op_steps (ht_init 10 16 4) [116, 101, 109, 112] ≤ 10 ∧
    mp_init_link_steps 64 32 = 64 / 32 :=
  ⟨C9_step_bounds.1 (ht_init 10 16 4) [116, 101, 109, 112],
   C9_step_bounds.2 64 32 (by decide) (by decide)⟩

/-! ## FixedMap probe lemmas -/

/-- Every index hit by the probe loop is a valid bucket index. -/
theorem add_mod_cases {a i ts : Nat} (_ha : a < ts) (_hi : i < ts) :
    (a + i) % ts = if a + i < ts then a + i else a + i - ts := by
  split
  · exact Nat.mod_eq_of_lt (by assumption)
  · rw [Nat.mod_eq_sub_mod (by omega), Nat.mod_eq_of_lt (by omega)]

/-- The probe order visits pairwise distinct buckets in its first
`table_size` steps. -/
theorem probe_inj {index ts i j : Nat} (hi : i < ts) (hj : j < ts)
    (h : (index + i) % ts = (index + j) % ts) : i = j := by
  have hts : 0 < ts := by omega
  have ha : index % ts < ts := Nat.mod_lt _ hts
  rw [Nat.add_mod index i, Nat.add_mod index j, Nat.mod_eq_of_lt hi,
    Nat.mod_eq_of_lt hj, add_mod_cases ha hi, add_mod_cases ha hj] at h
  split at h <;> split at h <;> omega

/-- The probe order visits every bucket within `table_size` steps. -/
theorem probe_surj (index : Nat) {ts j : Nat} (hj : j < ts) :
    ∃ i, i < ts ∧ (index + i) % ts = j := by
  have hts : 0 < ts := by omega
  have ha : index % ts < ts := Nat.mod_lt _ hts
  by_cases hc : index % ts ≤ j
  · refine ⟨j - index % ts, by omega, ?_⟩
    rw [Nat.add_mod index, Nat.mod_eq_of_lt (show j - index % ts < ts by omega),
      add_mod_cases ha (by omega)]
    split <;> omega
  · refine ⟨ts + j - index % ts, by omega, ?_⟩
    rw [Nat.add_mod index, Nat.mod_eq_of_lt (show ts + j - index % ts < ts by omega),
      add_mod_cases ha (by omega)]
    split <;> omega

/-- Soundness of the probe loop: a hit is the first admissible step. -/
theorem ht_probe_loop_some (ht : fixed_hash_table) (key : List Nat) (index : Nat) :
    ∀ fuel i ci, ht_probe_loop ht key index i fuel = some ci →
      ∃ m, i ≤ m ∧ m < ht.table_size ∧ ci = (index + m) % ht.table_size ∧
        ht_slot_ok ht key index m = true ∧
        ∀ l, i ≤ l → l < m → ht_slot_ok ht key index l = false := by
  intro fuel
  induction fuel with
  | zero => intro i ci h; simp [ht_probe_loop] at h
  | succ fuel ih =>
    intro i ci h
    unfold ht_probe_loop at h
    by_cases hlt : i < ht.table_size
    · rw [if_pos hlt] at h
      by_cases hok : ht_slot_ok ht key index i = true
      · rw [if_pos hok] at h
        refine ⟨i, le_refl i, hlt, (Option.some.inj h).symm, hok, ?_⟩
        intro l hl1 hl2
        omega
      · rw [if_neg hok] at h
        obtain ⟨m, hm1, hm2, hm3, hm4, hm5⟩ := ih (i + 1) ci h
        refine ⟨m, by omega, hm2, hm3, hm4, ?_⟩
        intro l hl1 hl2
        rcases Nat.eq_or_lt_of_le hl1 with heq | hl
        · subst heq
          exact Bool.not_eq_true _ ▸ (Bool.eq_false_iff.mpr (fun he => hok he))
        · exact hm5 l (by omega) hl2
    · rw [if_neg hlt] at h
      exact absurd h (by simp)

/-- Completeness of the probe loop: if step `m` is the first admissible
one and the fuel reaches it, the loop returns its bucket. -/
theorem ht_probe_loop_first (ht : fixed_hash_table) (key : List Nat) (index : Nat) :
    ∀ fuel i m, i ≤ m → m < ht.table_size → m < i + fuel →
      ht_slot_ok ht key index m = true →
      (∀ l, i ≤ l → l < m → ht_slot_ok ht key index l = false) →
      ht_probe_loop ht key index i fuel = some ((index + m) % ht.table_size) := by
  intro fuel
  induction fuel with
  | zero => intro i m h1 _ h3 _ _; omega
  | succ fuel ih =>
    intro i m h1 h2 h3 h4 h5
    unfold ht_probe_loop
    rw [if_pos (by omega)]
    rcases Nat.eq_or_lt_of_le h1 with heq | hlt
    · subst heq
      rw [if_pos h4]
    · rw [if_neg (by simp [h5 i (le_refl i) hlt])]
      exact ih (i + 1) m (by omega) h2 (by omega) h4
        (fun l hl1 hl2 => h5 l (by omega) hl2)

theorem ht_probe_some {ht : fixed_hash_table} {key : List Nat} {index ci : Nat}
    (h : ht_probe ht key index 0 = some ci) :
    ∃ m, m < ht.table_size ∧ ci = (index + m) % ht.table_size ∧
      ht_slot_ok ht key index m = true ∧
      ∀ l, l < m → ht_slot_ok ht key index l = false := by
  obtain ⟨m, _, hm2, hm3, hm4, hm5⟩ := ht_probe_loop_some ht key index _ 0 ci h
  exact ⟨m, hm2, hm3, hm4, fun l hl => hm5 l (Nat.zero_le l) hl⟩

theorem ht_probe_first {ht : fixed_hash_table} {key : List Nat} {index m : Nat}
    (h2 : m < ht.table_size) (h4 : ht_slot_ok ht key index m = true)
    (h5 : ∀ l, l < m → ht_slot_ok ht key index l = false) :
    ht_probe ht key index 0 = some ((index + m) % ht.table_size) :=
  ht_probe_loop_first ht key index (ht.table_size - 0) 0 m (Nat.zero_le m) h2
    (by omega) h4 (fun l _ hl2 => h5 l hl2)

/-- If occupancy is below `table_size`, some bucket is unoccupied. -/
theorem countP_lt_exists_not {α : Type} {p : α → Bool} :
    ∀ l : List α, l.countP p < l.length → ∃ b ∈ l, p b = false := by
  intro l
  induction l with
  | nil => simp
  | cons x xs ih =>
    intro h
    by_cases hx : p x = true
    · rw [List.countP_cons, if_pos hx, List.length_cons] at h
      obtain ⟨b, hb1, hb2⟩ := ih (by omega)
      exact ⟨b, List.mem_cons_of_mem _ hb1, hb2⟩
    · exact ⟨x, List.mem_cons_self _ _, by simpa using hx⟩

theorem mem_exists_getD {α : Type} {l : List α} {b : α} {d : α} (h : b ∈ l) :
    ∃ j, j < l.length ∧ l.getD j d = b := by
  induction l with
  | nil => simp at h
  | cons x xs ih =>
    rcases List.mem_cons.mp h with heq | hx
    · exact ⟨0, by simp, heq.symm⟩
    · obtain ⟨j, hj1, hj2⟩ := ih hx
      exact ⟨j + 1, by simp only [List.length_cons]; omega, by simpa using hj2⟩

theorem exists_empty_bucket {ht : fixed_hash_table}
    (hwf : ht.buckets.length = ht.table_size)
    (hocc : ht_occupancy ht < ht.table_size) :
    ∃ j, j < ht.table_size ∧ (ht_bucket_at ht j).occ = 0 := by
  have h' : ht.buckets.countP (fun b => b.occ != 0) < ht.buckets.length := by
    rw [hwf]; exact hocc
  obtain ⟨b, hb1, hb2⟩ := countP_lt_exists_not ht.buckets h'
  obtain ⟨j, hj1, hj2⟩ := mem_exists_getD (d := (⟨[], [], 0⟩ : ht_bucket)) hb1
  refine ⟨j, by omega, ?_⟩
  unfold ht_bucket_at
  rw [hj2]
  simpa using hb2

/-- Under the occupancy bound, the probe from the key's home bucket finds
a first admissible slot. -/
theorem ht_find_first_slot (ht : fixed_hash_table) (key : List Nat)
    (hwf : ht.buckets.length = ht.table_size)
    (hocc : ht_occupancy ht < ht.table_size) :
    ∃ m, m < ht.table_size ∧
      ht_probe ht key (hash_function key % ht.table_size) 0 =
        some ((hash_function key % ht.table_size + m) % ht.table_size) ∧
      ht_slot_ok ht key (hash_function key % ht.table_size) m = true ∧
      ∀ l, l < m → ht_slot_ok ht key (hash_function key % ht.table_size) l = false := by
  obtain ⟨j, hj1, hj2⟩ := exists_empty_bucket hwf hocc
  obtain ⟨i, hi1, hi2⟩ := probe_surj (hash_function key % ht.table_size) hj1
  have hQ : ht_slot_ok ht key (hash_function key % ht.table_size) i = true := by
    unfold ht_slot_ok
    rw [hi2]
    simp [hj2]
  have hex : ∃ l, ht_slot_ok ht key (hash_function key % ht.table_size) l = true := ⟨i, hQ⟩
  refine ⟨Nat.find hex, ?_, ?_, Nat.find_spec hex, ?_⟩
  · have := Nat.find_min' hex hQ
    omega
  · exact ht_probe_first (by have := Nat.find_min' hex hQ; omega) (Nat.find_spec hex)
      (fun l hl => by simpa using Nat.find_min hex hl)
  · intro l hl
    simpa using Nat.find_min hex hl

/-- Behaviour of `ht_put` under the occupancy bound: it succeeds and writes the new
bucket at the first admissible probe slot. -/
theorem ht_put_spec (ht : fixed_hash_table) (key value : List Nat)
    (hwf : ht.buckets.length = ht.table_size)
    (hocc : ht_occupancy ht < ht.table_size) :
    ∃ m, m < ht.table_size ∧ (ht_put ht key value).1 = true ∧
      (ht_put ht key value).2 =
        ht_set_bucket ht ((hash_function key % ht.table_size + m) % ht.table_size)
          (ht_written_bucket ht key value) ∧
      ht_slot_ok ht key (hash_function key % ht.table_size) m = true ∧
      ∀ l, l < m → ht_slot_ok ht key (hash_function key % ht.table_size) l = false := by
  obtain ⟨m, h1, h2, h3, h4⟩ := ht_find_first_slot ht key hwf hocc
  refine ⟨m, h1, ?_, ?_, h3, h4⟩
  · unfold ht_put
    rw [h2]
  · unfold ht_put
    rw [h2]

/-! ## C-string and field lemmas -/

theorem cstr_eq_self {k : List Nat} (hk : ∀ c ∈ k, c ≠ 0) : cstr k = k := by
  induction k with
  | nil => rfl
  | cons c cs ih =>
    unfold cstr at ih ⊢
    rw [List.takeWhile_cons, if_pos (by simpa using hk c (List.mem_cons_self _ _))]
    rw [ih (fun x hx => hk x (List.mem_cons_of_mem _ hx))]

theorem cstr_append_replicate_zero {k : List Nat} (hk : ∀ c ∈ k, c ≠ 0)
    (mlen : Nat) : cstr (k ++ List.replicate mlen 0) = k := by
  induction k with
  | nil =>
    cases mlen with
    | zero => rfl
    | succ m => simp [cstr, List.replicate]
  | cons c cs ih =>
    unfold cstr at ih ⊢
    rw [List.cons_append, List.takeWhile_cons,
      if_pos (by simpa using hk c (List.mem_cons_self _ _))]
    rw [ih (fun x hx => hk x (List.mem_cons_of_mem _ hx))]

theorem valid_key_ne_zero {k : List Nat} (hk : ValidKey k) : ∀ c ∈ k, c ≠ 0 :=
  fun c hc => Nat.pos_iff_ne_zero.mp (hk c hc).1

/-- The key field a `put` stores for a short valid key reads back as
exactly that key. -/
theorem key_field_cstr {mkl : Nat} {k : List Nat} (hk : ValidKey k)
    (hlen : k.length < mkl) : cstr (key_field mkl k) = k := by
  unfold key_field
  rw [cstr_eq_self (valid_key_ne_zero hk),
    List.take_of_length_le (by omega)]
  exact cstr_append_replicate_zero (valid_key_ne_zero hk) _

theorem val_field_eq {vs : Nat} {v : List Nat} (hv : v.length = vs) :
    val_field vs v = v := by
  unfold val_field
  subst hv
  simp

/-! ## FixedMap round-trip (claim C2) -/

theorem ht_set_bucket_table_size (ht : fixed_hash_table) (ci : Nat) (b : ht_bucket) :
    (ht_set_bucket ht ci b).table_size = ht.table_size := rfl

theorem ht_bucket_at_set_self {ht : fixed_hash_table} {ci : Nat} (b : ht_bucket)
    (h : ci < ht.buckets.length) : ht_bucket_at (ht_set_bucket ht ci b) ci = b :=
  getD_set_self b h

theorem ht_bucket_at_set_ne {ht : fixed_hash_table} {ci x : Nat} (b : ht_bucket)
    (h : ci ≠ x) : ht_bucket_at (ht_set_bucket ht ci b) x = ht_bucket_at ht x :=
  getD_set_ne b h

theorem ht_slot_ok_congr {ht ht' : fixed_hash_table} (key : List Nat) (index l : Nat)
    (hts : ht'.table_size = ht.table_size)
    (hb : ht_bucket_at ht' ((index + l) % ht.table_size) =
          ht_bucket_at ht ((index + l) % ht.table_size)) :
    ht_slot_ok ht' key index l = ht_slot_ok ht key index l := by
  unfold ht_slot_ok
  rw [hts, hb]

/-- C2: for a well-formed table with occupancy below `table_size`, a key
that fits untruncated (length < `max_key_length`, non-NUL characters) and
a value of exactly `value_size` bytes, `put` succeeds and an immediate
`get` of the same key returns exactly the stored value bytes. -/
theorem C2_fixedmap_roundtrip (ht : fixed_hash_table) (k v : List Nat)
    (hwf : ht.buckets.length = ht.table_size)
    (hk : ValidKey k) (hklen : k.length < ht.max_key_length)
    (hv : v.length = ht.value_size)
    (hocc : ht_occupancy ht < ht.table_size) :
    (ht_put ht k v).1 = true ∧ ht_get (ht_put ht k v).2 k = some v := by
  obtain ⟨m, hm, hok, hst, hslot, hfirst⟩ := ht_put_spec ht k v hwf hocc
  refine ⟨hok, ?_⟩
  have hts_pos : 0 < ht.table_size := by omega
  have hci_lt : (hash_function k % ht.table_size + m) % ht.table_size < ht.table_size :=
    Nat.mod_lt _ hts_pos
  have hcstr : cstr (key_field ht.max_key_length k) = k := key_field_cstr hk hklen
  have hkk : cstr k = k := cstr_eq_self (valid_key_ne_zero hk)
  have hbat_ci : ht_bucket_at (ht_put ht k v).2
      ((hash_function k % ht.table_size + m) % ht.table_size) =
      ht_written_bucket ht k v := by
    rw [hst]
    exact ht_bucket_at_set_self _ (by rw [hwf]; exact hci_lt)
  have hmatch : str_eq (ht_written_bucket ht k v).key k = true := by
    unfold ht_written_bucket str_eq
    rw [hcstr, hkk]
    simp
  have hts' : (ht_put ht k v).2.table_size = ht.table_size := by
    rw [hst, ht_set_bucket_table_size]
  have hslot' : ∀ l, l < m →
      ht_slot_ok (ht_put ht k v).2 k (hash_function k % ht.table_size) l = false := by
    intro l hl
    rw [ht_slot_ok_congr k _ l hts']
    · exact hfirst l hl
    · rw [hst]
      refine ht_bucket_at_set_ne _ ?_
      intro he
      exact absurd (probe_inj hm (by omega) he) (by omega)
  have hslot_m : ht_slot_ok (ht_put ht k v).2 k (hash_function k % ht.table_size) m = true := by
    unfold ht_slot_ok
    rw [hts', hbat_ci, hmatch]
    simp
  have hprobe0 := ht_probe_first (show m < (ht_put ht k v).2.table_size from
    by rw [hts']; exact hm) hslot_m hslot'
  rw [hts'] at hprobe0
  have hhash2 : hash_function k % (ht_put ht k v).2.table_size =
      hash_function k % ht.table_size := by rw [hts']
  have hget : ht_get (ht_put ht k v).2 k =
      if (ht_bucket_at (ht_put ht k v).2
            ((hash_function k % ht.table_size + m) % ht.table_size)).occ == 0
      then none
      else some (ht_bucket_at (ht_put ht k v).2
            ((hash_function k % ht.table_size + m) % ht.table_size)).val := by
    unfold ht_get
    rw [hhash2, hprobe0]
  rw [hget, hbat_ci]
  unfold ht_written_bucket
  simp [val_field_eq hv]

/-- Witness for C2: the spec's example — 10 buckets, 16-char keys, 4-byte
values, `put("temp", 25)` then `get("temp")`. -/
theorem C2_fixedmap_roundtrip_witness :
    (ht_put (ht_init 10 16 4) [116, 101, 109, 112] [25, 0, 0, 0]).1 = true ∧
    ht_get (ht_put (ht_init 10 16 4) [116, 101, 109, 112] [25, 0, 0, 0]).2
      [116, 101, 109, 112] = some [25, 0, 0, 0] :=
  C2_fixedmap_roundtrip (ht_init 10 16 4) [116, 101, 109, 112] [25, 0, 0, 0]
    (by decide) (by decide) (by decide) (by decide) (by decide)

/-! ## Probe-chain break after `remove` (claim C3)

Concrete scenario shared with the C7 analysis: a 2-bucket table with
4-byte key fields and 1-byte values.  Keys A = "a" (byte 97) and
B = "c" (byte 99) both hash to bucket 1 (97 and 99 are odd). -/

/-- After `put(A, [7])` (bucket 1) and `put(B, [8])` (probes bucket 1,
occupied by A, wraps to bucket 0). -/
def chain_ht2 : fixed_hash_table :=
  (ht_put (ht_put (ht_init 2 4 1) [97] [7]).2 [99] [8]).2

/-- After `remove(A)` clears bucket 1's occupancy flag. -/
def chain_ht3 : fixed_hash_table := (ht_remove chain_ht2 [97]).2

/-- After re-inserting B: `put(B, [9])` now stops at the unoccupied
bucket 1, duplicating B's key. -/
def chain_ht4 : fixed_hash_table := (ht_put chain_ht3 [99] [9]).2

/-- C3: in the scenario above, `remove(A)` succeeds, and `get(B)` then
stops at A's now-unoccupied home bucket and reports "not found", although
bucket 0 — further down B's probe sequence — still holds B's key and
value with its occupancy flag set. -/
theorem C3_remove_breaks_probe_chain :
    hash_function [97] % 2 = 1 ∧ hash_function [99] % 2 = 1 ∧
    (ht_put (ht_init 2 4 1) [97] [7]).1 = true ∧
    (ht_put (ht_put (ht_init 2 4 1) [97] [7]).2 [99] [8]).1 = true ∧
    (ht_remove chain_ht2 [97]).1 = true ∧
    ht_get chain_ht3 [99] = none ∧
    ht_contains chain_ht3 [99] = false ∧
    (ht_bucket_at chain_ht3 0).occ = 1 ∧
    cstr (ht_bucket_at chain_ht3 0).key = [99] ∧
    (ht_bucket_at chain_ht3 0).val = [8] := by
  decide

/-! ## Key truncation (claim C10)

The first half of the claim holds: `put` stores at most
`max_key_length - 1` key characters, forces a NUL at index
`max_key_length - 1`, and still succeeds for longer keys.  The
"consequently treated as the same key" half fails: lookups compare the
full query key against the truncated stored key, so a key of length
≥ `max_key_length` never matches its own stored form. -/

theorem getD_append_right {α : Type} {l₁ l₂ : List α} {d : α} (j : Nat) :
    (l₁ ++ l₂).getD (l₁.length + j) d = l₂.getD j d := by
  induction l₁ with
  | nil => simp
  | cons x xs ih => simpa [Nat.succ_add] using ih

theorem cstr_mem_ne_zero {k : List Nat} : ∀ c ∈ cstr k, c ≠ 0 := by
  intro c hc
  have h := List.mem_takeWhile_imp hc
  simpa using h

theorem key_field_length (mkl : Nat) (k : List Nat) :
    (key_field mkl k).length = mkl := by
  unfold key_field
  have h : ((cstr k).take (mkl - 1)).length ≤ mkl := by
    rw [List.length_take]
    omega
  rw [List.length_append, List.length_replicate]
  omega

theorem getD_append_ge {α : Type} {l₁ l₂ : List α} {d : α} :
    ∀ i, l₁.length ≤ i → (l₁ ++ l₂).getD i d = l₂.getD (i - l₁.length) d := by
  induction l₁ with
  | nil => intro i _; simp
  | cons x xs ih =>
    intro i h
    cases i with
    | zero => simp at h
    | succ j =>
      simp only [List.cons_append, List.getD_cons_succ, List.length_cons]
      rw [ih j (by simp only [List.length_cons] at h; omega)]
      have he : j + 1 - (xs.length + 1) = j - xs.length := by omega
      rw [he]

theorem key_field_last_zero {mkl : Nat} (k : List Nat) (h : 1 ≤ mkl) :
    (key_field mkl k).getD (mkl - 1) 0 = 0 := by
  unfold key_field
  have hlen : ((cstr k).take (mkl - 1)).length ≤ mkl - 1 := by
    rw [List.length_take]
    omega
  rw [getD_append_ge _ hlen]
  exact getD_replicate (by omega)

theorem cstr_key_field (mkl : Nat) (k : List Nat) :
    cstr (key_field mkl k) = (cstr k).take (mkl - 1) := by
  unfold key_field
  exact cstr_append_replicate_zero
    (fun c hc => cstr_mem_ne_zero c (List.take_subset _ _ hc)) _

/-- C10 amended: for any table with a free slot, `put` succeeds for every
key (truncated or not) and writes a bucket whose key field holds at most
`max_key_length - 1` key characters, is NUL at index `max_key_length - 1`,
and reads back as the truncation of the key; two keys agreeing on their
first `max_key_length - 1` characters produce identical stored key
fields.  (They are nonetheless NOT treated as the same key by
`get`/`remove`/`contains` — see the counterexample.) -/
theorem C10_put_truncates_key (ht : fixed_hash_table) (k v : List Nat)
    (hwf : ht.buckets.length = ht.table_size)
    (hocc : ht_occupancy ht < ht.table_size)
    (hmkl : 1 ≤ ht.max_key_length) :
    ((ht_put ht k v).1 = true ∧
      ∃ ci, ci < ht.table_size ∧
        ht_bucket_at (ht_put ht k v).2 ci = ht_written_bucket ht k v) ∧
    (key_field ht.max_key_length k).length = ht.max_key_length ∧
    (key_field ht.max_key_length k).getD (ht.max_key_length - 1) 0 = 0 ∧
    cstr (key_field ht.max_key_length k) = (cstr k).take (ht.max_key_length - 1) ∧
    (∀ k1 k2 : List Nat,
      (cstr k1).take (ht.max_key_length - 1) = (cstr k2).take (ht.max_key_length - 1) →
      key_field ht.max_key_length k1 = key_field ht.max_key_length k2) := by
  refine ⟨?_, key_field_length _ k, key_field_last_zero k hmkl,
    cstr_key_field _ k, ?_⟩
  · obtain ⟨m, hm, hok, hst, _, _⟩ := ht_put_spec ht k v hwf hocc
    refine ⟨hok, (hash_function k % ht.table_size + m) % ht.table_size,
      Nat.mod_lt _ (by omega), ?_⟩
    rw [hst]
    exact ht_bucket_at_set_self _
      (by rw [hwf]; exact Nat.mod_lt _ (by omega))
  · intro k1 k2 h
    unfold key_field
    rw [h]

/-- Counterexample to C10's "treated as the same key" consequence:
`max_key_length = 2`; keys "ab" and "ac" agree on their first
`max_key_length - 1 = 1` characters; `put("ab", [5])` succeeds (storing
the truncation "a"), yet `get`/`contains` fail on "ac" — and even on
"ab" itself — instead of treating them as the stored key. -/
theorem C10_counterexample :
    (ht_put (ht_init 3 2 1) [97, 98] [5]).1 = true ∧
    ([97, 98] : List Nat).take 1 = ([97, 99] : List Nat).take 1 ∧
    ht_get (ht_put (ht_init 3 2 1) [97, 98] [5]).2 [97, 99] = none ∧
    ht_contains (ht_put (ht_init 3 2 1) [97, 98] [5]).2 [97, 99] = false ∧
    ht_get (ht_put (ht_init 3 2 1) [97, 98] [5]).2 [97, 98] = none := by
  decide

/-- Witness for C10 at `ht_init 3 2 1`, key "ab", value [5]. -/
theorem C10_put_truncates_key_witness :
    (((ht_put (ht_init 3 2 1) [97, 98] [5]).1 = true ∧
      ∃ ci, ci < 3 ∧
        ht_bucket_at (ht_put (ht_init 3 2 1) [97, 98] [5]).2 ci =
          ht_written_bucket (ht_init 3 2 1) [97, 98] [5]) ∧
    (key_field 2 [97, 98]).length = 2 ∧
    (key_field 2 [97, 98]).getD 1 0 = 0 ∧
    cstr (key_field 2 [97, 98]) = (cstr [97, 98]).take 1 ∧
    (∀ k1 k2 : List Nat, (cstr k1).take 1 = (cstr k2).take 1 →
      key_field 2 k1 = key_field 2 k2)) :=
  C10_put_truncates_key (ht_init 3 2 1) [97, 98] [5]
    (by decide) (by decide) (by decide)

/-! ## FixedMap key uniqueness (claim C7)

The claimed invariant — no two occupied buckets hold an equal stored
key — is violated by the code once `remove` participates: clearing only
the occupancy flag breaks probe chains, so a fresh `put` of a key whose
chain was broken stores it a second time (see `C7_counterexample`, which
extends the C3 scenario by one re-insertion).  The invariant does hold
for every table reachable by `init` and `put` alone (with keys that fit
untruncated); `get`/`contains` never mutate the table. -/

/-- No two distinct occupied buckets hold an equal stored key. -/
def HtNoDupKeys (ht : fixed_hash_table) : Prop :=
  ∀ j1, j1 < ht.table_size → ∀ j2, j2 < ht.table_size →
    (ht_bucket_at ht j1).occ ≠ 0 → (ht_bucket_at ht j2).occ ≠ 0 →
    cstr (ht_bucket_at ht j1).key = cstr (ht_bucket_at ht j2).key → j1 = j2

/-- Every occupied bucket is reachable from its stored key's home bucket
through occupied buckets only (probe-chain integrity). -/
def HtChained (ht : fixed_hash_table) : Prop :=
  ∀ j, j < ht.table_size → (ht_bucket_at ht j).occ ≠ 0 →
    ∃ m, m < ht.table_size ∧
      (hash_function (cstr (ht_bucket_at ht j).key) % ht.table_size + m) %
        ht.table_size = j ∧
      ∀ l, l < m →
        (ht_bucket_at ht
          ((hash_function (cstr (ht_bucket_at ht j).key) % ht.table_size + l) %
            ht.table_size)).occ ≠ 0

def HtInv (ht : fixed_hash_table) : Prop :=
  ht.buckets.length = ht.table_size ∧ HtNoDupKeys ht ∧ HtChained ht

theorem ht_init_bucket_at {ts mkl vs j : Nat} (h : j < ts) :
    ht_bucket_at (ht_init ts mkl vs) j =
      ⟨List.replicate mkl 0, List.replicate vs 0, 0⟩ := by
  unfold ht_bucket_at ht_init
  exact getD_replicate h

theorem ht_init_inv (ts mkl vs : Nat) : HtInv (ht_init ts mkl vs) := by
  refine ⟨by simp [ht_init], ?_, ?_⟩
  · intro j1 hj1 j2 hj2 ho1 _ _
    exfalso
    apply ho1
    have hj1' : j1 < ts := hj1
    rw [ht_init_bucket_at hj1']
  · intro j hj hjo
    exfalso
    apply hjo
    have hj' : j < ts := hj
    rw [ht_init_bucket_at hj']

theorem ht_put_max_key_length (ht : fixed_hash_table) (k v : List Nat) :
    (ht_put ht k v).2.max_key_length = ht.max_key_length := by
  unfold ht_put
  generalize ht_probe ht k (hash_function k % ht.table_size) 0 = r
  rcases r with _ | ci <;> rfl

theorem ht_put_preserves_inv (ht : fixed_hash_table) (k v : List Nat)
    (hinv : HtInv ht) (hk : ValidKey k) (hklen : k.length < ht.max_key_length) :
    HtInv (ht_put ht k v).2 := by
  obtain ⟨hwf, hnodup, hchain⟩ := hinv
  cases hp : ht_probe ht k (hash_function k % ht.table_size) 0 with
  | none =>
    have hr : (ht_put ht k v).2 = ht := by unfold ht_put; rw [hp]
    rw [hr]
    exact ⟨hwf, hnodup, hchain⟩
  | some ci =>
    have hr : (ht_put ht k v).2 = ht_set_bucket ht ci (ht_written_bucket ht k v) := by
      unfold ht_put; rw [hp]
    obtain ⟨m, hm, hci, hsok, hfirst⟩ := ht_probe_some hp
    have hts0 : 0 < ht.table_size := by omega
    have hcilt : ci < ht.table_size := by rw [hci]; exact Nat.mod_lt _ hts0
    have hkc : cstr k = k := cstr_eq_self (valid_key_ne_zero hk)
    have hkfc : cstr (ht_written_bucket ht k v).key = k := key_field_cstr hk hklen
    have hts' : (ht_put ht k v).2.table_size = ht.table_size := by rw [hr]; rfl
    have hbat : ∀ x, x ≠ ci →
        ht_bucket_at (ht_put ht k v).2 x = ht_bucket_at ht x := by
      intro x hx
      rw [hr]
      exact ht_bucket_at_set_ne _ (Ne.symm hx)
    have hbatci : ht_bucket_at (ht_put ht k v).2 ci = ht_written_bucket ht k v := by
      rw [hr]
      exact ht_bucket_at_set_self _ (by rw [hwf]; exact hcilt)
    have hoccmono : ∀ x, (ht_bucket_at ht x).occ ≠ 0 →
        (ht_bucket_at (ht_put ht k v).2 x).occ ≠ 0 := by
      intro x hx
      by_cases hxc : x = ci
      · subst hxc
        rw [hbatci]
        simp [ht_written_bucket]
      · rw [hbat x hxc]
        exact hx
    have hsokfalse : ∀ l, ht_slot_ok ht k (hash_function k % ht.table_size) l = false →
        (ht_bucket_at ht
          ((hash_function k % ht.table_size + l) % ht.table_size)).occ ≠ 0 := by
      intro l hl
      unfold ht_slot_ok at hl
      rw [Bool.or_eq_false_iff] at hl
      simpa using hl.1
    have hnotk : ∀ j, j < ht.table_size → j ≠ ci → (ht_bucket_at ht j).occ ≠ 0 →
        cstr (ht_bucket_at ht j).key = k → False := by
      intro j hj hjc hjo hjk
      obtain ⟨m2, hm2lt, hm2eq, hm2path⟩ := hchain j hj hjo
      rw [hjk] at hm2eq hm2path
      have hsok2 : ht_slot_ok ht k (hash_function k % ht.table_size) m2 = true := by
        unfold ht_slot_ok
        rw [hm2eq]
        have hmt : str_eq (ht_bucket_at ht j).key k = true := by
          unfold str_eq
          rw [hjk, hkc]
          simp
        simp [hmt]
      have hmle : m ≤ m2 := by
        by_contra hgt
        push_neg at hgt
        have hff := hfirst m2 hgt
        rw [hff] at hsok2
        exact absurd hsok2 (by simp)
      rcases Nat.eq_or_lt_of_le hmle with heq | hlt
      · apply hjc
        rw [← hm2eq, ← heq, ← hci]
      · have hciocc : (ht_bucket_at ht ci).occ ≠ 0 := by
          have hpm := hm2path m hlt
          rw [← hci] at hpm
          exact hpm
        have hcimatch : cstr (ht_bucket_at ht ci).key = k := by
          unfold ht_slot_ok at hsok
          rw [← hci, Bool.or_eq_true] at hsok
          rcases hsok with ho | hmch
          · exact absurd (by simpa using ho) hciocc
          · unfold str_eq at hmch
            rw [hkc] at hmch
            simpa using hmch
        exact hjc (hnodup j hj ci hcilt hjo hciocc (by rw [hjk, hcimatch]))
    refine ⟨?_, ?_, ?_⟩
    · rw [hr]
      show (ht.buckets.set ci (ht_written_bucket ht k v)).length =
        ht.table_size
      rw [List.length_set]
      exact hwf
    · intro j1 hj1 j2 hj2 ho1 ho2 hkeq
      rw [hts'] at hj1 hj2
      by_cases h1 : j1 = ci <;> by_cases h2 : j2 = ci
      · rw [h1, h2]
      · exfalso
        subst h1
        rw [hbatci] at hkeq
        rw [hbat j2 h2] at ho2 hkeq
        rw [hkfc] at hkeq
        exact hnotk j2 hj2 h2 ho2 hkeq.symm
      · exfalso
        subst h2
        rw [hbatci] at hkeq
        rw [hbat j1 h1] at ho1 hkeq
        rw [hkfc] at hkeq
        exact hnotk j1 hj1 h1 ho1 hkeq
      · rw [hbat j1 h1] at ho1 hkeq
        rw [hbat j2 h2] at ho2 hkeq
        exact hnodup j1 hj1 j2 hj2 ho1 ho2 hkeq
    · intro j hj hjo
      rw [hts'] at hj ⊢
      by_cases hjc : j = ci
      · subst hjc
        rw [hbatci, hkfc]
        refine ⟨m, hm, hci.symm, ?_⟩
        intro l hl
        exact hoccmono _ (hsokfalse l (hfirst l hl))
      · rw [hbat j hjc]
        have hjo' : (ht_bucket_at ht j).occ ≠ 0 := by
          rw [← hbat j hjc]
          exact hjo
        obtain ⟨m2, hm2, hm2eq, hm2path⟩ := hchain j hj hjo'
        refine ⟨m2, hm2, hm2eq, ?_⟩
        intro l hl
        exact hoccmono _ (hm2path l hl)

/-- Iterated `ht_put` over a list of key/value pairs (`get`/`contains`
never mutate the table, so a remove-free operation sequence is a
put-trace). -/
def ht_apply_puts : fixed_hash_table → List (List Nat × List Nat) → fixed_hash_table
  | ht, [] => ht
  | ht, p :: rest => ht_apply_puts (ht_put ht p.1 p.2).2 rest

/-- All keys of a put-trace are NUL-free C strings that fit untruncated. -/
def GoodPuts (mkl : Nat) (ops : List (List Nat × List Nat)) : Prop :=
  ∀ p ∈ ops, ValidKey p.1 ∧ p.1.length < mkl

instance GoodPuts.decidable (mkl : Nat) (ops : List (List Nat × List Nat)) :
    Decidable (GoodPuts mkl ops) :=
  List.decidableBAll
    (fun p : List Nat × List Nat => ValidKey p.1 ∧ p.1.length < mkl) ops

theorem ht_apply_puts_inv :
    ∀ (ops : List (List Nat × List Nat)) (ht : fixed_hash_table),
      HtInv ht → GoodPuts ht.max_key_length ops →
      HtInv (ht_apply_puts ht ops) := by
  intro ops
  induction ops with
  | nil => intro ht h _; exact h
  | cons p rest ih =>
    intro ht h hg
    have hp := hg p (List.mem_cons_self _ _)
    have h1 := ht_put_preserves_inv ht p.1 p.2 h hp.1 hp.2
    refine ih _ h1 ?_
    intro q hq
    rw [ht_put_max_key_length]
    exact hg q (List.mem_cons_of_mem _ hq)

/-- C7 amended: every table reachable from `init` by `put` operations
whose keys are NUL-free and fit untruncated (no `remove` in the trace;
`get`/`contains` do not mutate) has no two occupied buckets holding an
equal stored key. -/
theorem C7_no_dup_keys_without_remove (ts mkl vs : Nat)
    (ops : List (List Nat × List Nat)) (hops : GoodPuts mkl ops) :
    HtNoDupKeys (ht_apply_puts (ht_init ts mkl vs) ops) :=
  (ht_apply_puts_inv ops (ht_init ts mkl vs) (ht_init_inv ts mkl vs) hops).2.1

/-- Counterexample to C7 as stated: with `remove` in the sequence
(valid inputs throughout: 2 buckets, 4-byte key fields, keys "a" and "c"
untruncated), the final table of the C3 scenario plus one re-insertion of
B holds the key "c" in BOTH buckets — `remove` broke B's probe chain, so
the second `put(B)` stored it again without finding the old copy. -/
theorem C7_counterexample :
    (ht_bucket_at chain_ht4 0).occ ≠ 0 ∧
    (ht_bucket_at chain_ht4 1).occ ≠ 0 ∧
    cstr (ht_bucket_at chain_ht4 0).key = cstr (ht_bucket_at chain_ht4 1).key ∧
    ¬ HtNoDupKeys chain_ht4 := by
  refine ⟨by decide, by decide, by decide, fun h => ?_⟩
  have h01 := h 0 (by decide) 1 (by decide) (by decide) (by decide) (by decide)
  exact absurd h01 (by decide)

/-- Witness for C7 (amended): the two-key put-trace of the C3 scenario
(no remove) yields a duplicate-free table. -/
theorem C7_no_dup_keys_without_remove_witness :
    HtNoDupKeys (ht_apply_puts (ht_init 2 4 1) [([97], [7]), ([99], [8])]) :=
  C7_no_dup_keys_without_remove 2 4 1 [([97], [7]), ([99], [8])] (by decide)

/-! ## ArenaAllocator: live handles never alias (claim C6)

A trace harness over `stack_alloc`/`stack_free_to`/`stack_reset`:
`handles` records the (offset, size) of every handle `alloc` returned,
`live` its liveness (a `free_to`/`reset` invalidates every handle whose
offset is at or above the rewind point, the rewound-to handle included).
The `ok` flag records the spec's trust contract — `free_to` only on a
previously returned, still-live handle — and that no `alloc` request
overflows `size_t`.  As stated (without the overflow proviso) the claim
is false: a wrapped `top + n` can be accepted, rewinding `top` below live
data (see `C6_counterexample`). -/

inductive arena_op where
  | alloc (n : Nat)
  | free_to (j : Nat)
  | reset
deriving DecidableEq

structure arena_state where
  sa : stack_allocator
  handles : List (Nat × Nat)
  live : List Bool
  ok : Bool
deriving DecidableEq

def arena_step (s : arena_state) : arena_op → arena_state
  | arena_op.alloc n =>
    if (s.sa.top + n) % USIZE > s.sa.size then
      { s with sa := (stack_alloc s.sa n).2,
               ok := s.ok && decide (s.sa.top + n < USIZE) }
    else
      ⟨(stack_alloc s.sa n).2, s.handles ++ [(s.sa.top, n)], s.live ++ [true],
       s.ok && decide (s.sa.top + n < USIZE)⟩
  | arena_op.free_to j =>
    ⟨stack_free_to s.sa (s.handles.getD j (0, 0)).1, s.handles,
     (List.range s.live.length).map
       (fun i => s.live.getD i false &&
         decide ((s.handles.getD i (0, 0)).1 < (s.handles.getD j (0, 0)).1)),
     s.ok && decide (j < s.handles.length) && s.live.getD j false⟩
  | arena_op.reset =>
    ⟨stack_reset s.sa, s.handles, s.live.map (fun _ => false), s.ok⟩

def arena_run (size : Nat) (ops : List arena_op) : arena_state :=
  ops.foldl arena_step ⟨stack_init size, [], [], true⟩

/-- Two handles denote non-overlapping sub-regions. -/
def region_disjoint (h1 h2 : Nat × Nat) : Prop :=
  h1.1 + h1.2 ≤ h2.1 ∨ h2.1 + h2.2 ≤ h1.1

/-- Run invariant: on valid traces the live handles are stacked below
`top` in allocation order. -/
def ArenaInv (s : arena_state) : Prop :=
  s.handles.length = s.live.length ∧
  (s.ok = true →
    (∀ i, i < s.handles.length → s.live.getD i false = true →
      (s.handles.getD i (0, 0)).1 + (s.handles.getD i (0, 0)).2 ≤ s.sa.top) ∧
    (∀ i j, i < j → j < s.handles.length →
      s.live.getD i false = true → s.live.getD j false = true →
      (s.handles.getD i (0, 0)).1 + (s.handles.getD i (0, 0)).2 ≤
        (s.handles.getD j (0, 0)).1))

theorem getD_range_map (f : Nat → Bool) :
    ∀ n i, i < n → ((List.range n).map f).getD i false = f i := by
  intro n
  induction n with
  | zero => intro i h; omega
  | succ n ih =>
    intro i h
    rw [List.range_succ, List.map_append]
    rcases Nat.lt_or_ge i n with hlt | hge
    · rw [getD_append_left (by simpa using hlt)]
      exact ih i hlt
    · have hieq : i = n := by omega
      subst hieq
      rw [getD_append_ge i (by simp)]
      simp

theorem getD_map_false {l : List Bool} : ∀ i, (l.map (fun _ => false)).getD i false = false := by
  induction l with
  | nil => intro i; simp
  | cons x xs ih =>
    intro i
    cases i with
    | zero => simp
    | succ j =>
      simp only [List.map_cons, List.getD_cons_succ]
      exact ih j

theorem arena_step_inv (s : arena_state) (op : arena_op) (h : ArenaInv s) :
    ArenaInv (arena_step s op) := by
  obtain ⟨hlen, hrest⟩ := h
  cases op with
  | alloc n =>
    simp only [arena_step]
    by_cases hc : (s.sa.top + n) % USIZE > s.sa.size
    · rw [if_pos hc]
      refine ⟨hlen, fun hok => ?_⟩
      have hok' : s.ok = true := by
        rw [Bool.and_eq_true] at hok
        exact hok.1
      have hsa : (stack_alloc s.sa n).2 = s.sa := by
        unfold stack_alloc
        rw [if_pos hc]
      obtain ⟨hb, hs⟩ := hrest hok'
      constructor
      · intro i hi hl
        have := hb i hi hl
        simpa [hsa] using this
      · intro i j hij hj hli hlj
        exact hs i j hij hj hli hlj
    · rw [if_neg hc]
      have hsa : (stack_alloc s.sa n).2.top = (s.sa.top + n) % USIZE := by
        unfold stack_alloc
        rw [if_neg hc]
      refine ⟨by simp [hlen], fun hok => ?_⟩
      dsimp only at hok ⊢
      rw [Bool.and_eq_true, decide_eq_true_iff] at hok
      obtain ⟨hok', hov⟩ := hok
      have htop : (stack_alloc s.sa n).2.top = s.sa.top + n := by
        rw [hsa, Nat.mod_eq_of_lt hov]
      obtain ⟨hb, hs⟩ := hrest hok'
      have hlivelen : s.live.length = s.handles.length := hlen.symm
      constructor
      · intro i hi hl
        rw [List.length_append, List.length_cons, List.length_nil] at hi
        rcases Nat.lt_or_ge i s.handles.length with hlt | hge
        · rw [getD_append_left (show i < s.live.length by omega)] at hl
          rw [getD_append_left hlt, htop]
          have hbi := hb i hlt hl
          omega
        · have hieq : i = s.handles.length := by omega
          subst hieq
          rw [getD_append_length, htop]
          simp
      · intro i j hij hj hli hlj
        rw [List.length_append, List.length_cons, List.length_nil] at hj
        rcases Nat.lt_or_ge j s.handles.length with hlt | hge
        · rw [getD_append_left hlt, getD_append_left (by omega)]
          rw [getD_append_left (by omega)] at hli
          rw [getD_append_left (by omega)] at hlj
          exact hs i j hij hlt hli hlj
        · have hjeq : j = s.handles.length := by omega
          subst hjeq
          rw [getD_append_length, getD_append_left (by omega)]
          rw [getD_append_left (by omega)] at hli
          exact hb i (by omega) hli
  | free_to j =>
    simp only [arena_step]
    refine ⟨by simp [hlen], fun hok => ?_⟩
    dsimp only [stack_free_to] at hok ⊢
    rw [Bool.and_eq_true, Bool.and_eq_true, decide_eq_true_iff] at hok
    obtain ⟨⟨hok', hjlt⟩, hjlive⟩ := hok
    obtain ⟨hb, hs⟩ := hrest hok'
    have hlive' : ∀ i, i < s.handles.length →
        ((List.range s.live.length).map
          (fun i => s.live.getD i false &&
            decide ((s.handles.getD i (0, 0)).1 < (s.handles.getD j (0, 0)).1))).getD
          i false =
        (s.live.getD i false &&
          decide ((s.handles.getD i (0, 0)).1 < (s.handles.getD j (0, 0)).1)) := by
      intro i hi
      exact getD_range_map _ s.live.length i (by omega)
    constructor
    · intro i hi hl
      rw [hlive' i hi, Bool.and_eq_true, decide_eq_true_iff] at hl
      obtain ⟨hil, hip⟩ := hl
      show _ ≤ (s.handles.getD j (0, 0)).1
      rcases Nat.lt_trichotomy i j with hij | hij | hij
      · exact hs i j hij hjlt hil hjlive
      · rw [hij] at hip
        omega
      · have hlow := hs j i hij hi hjlive hil
        omega
    · intro i j2 hij hj2 hli hlj
      rw [hlive' i (by omega), Bool.and_eq_true] at hli
      rw [hlive' j2 hj2, Bool.and_eq_true] at hlj
      exact hs i j2 hij hj2 hli.1 hlj.1
  | reset =>
    simp only [arena_step]
    refine ⟨by simp [hlen], fun hok => ?_⟩
    dsimp only [stack_reset] at hok ⊢
    constructor
    · intro i hi hl
      rw [getD_map_false] at hl
      exact absurd hl (by simp)
    · intro i j hij hj hli _
      rw [getD_map_false] at hli
      exact absurd hli (by simp)

theorem arena_foldl_inv : ∀ (ops : List arena_op) (s : arena_state),
    ArenaInv s → ArenaInv (ops.foldl arena_step s) := by
  intro ops
  induction ops with
  | nil => intro s h; exact h
  | cons op rest ih => intro s h; exact ih _ (arena_step_inv s op h)

theorem arena_init_inv (size : Nat) :
    ArenaInv ⟨stack_init size, [], [], true⟩ := by
  refine ⟨rfl, fun _ => ⟨?_, ?_⟩⟩
  · intro i hi _
    simp at hi
  · intro i j _ hj _ _
    simp at hj

/-- C6 amended: on every valid trace — `free_to` applied only to
previously returned, still-live handles, and no `alloc` request
overflowing `size_t` (this is what the run's `ok` flag checks) — any two
distinct live handles denote non-overlapping sub-regions. -/
theorem C6_no_live_alias (size : Nat) (ops : List arena_op)
    (hok : (arena_run size ops).ok = true) :
    ∀ i j, i ≠ j → i < (arena_run size ops).handles.length →
      j < (arena_run size ops).handles.length →
      (arena_run size ops).live.getD i false = true →
      (arena_run size ops).live.getD j false = true →
      region_disjoint ((arena_run size ops).handles.getD i (0, 0))
        ((arena_run size ops).handles.getD j (0, 0)) := by
  intro i j hne hi hj hli hlj
  obtain ⟨_, hrest⟩ := arena_foldl_inv ops _ (arena_init_inv size)
  obtain ⟨_, hsorted⟩ := hrest hok
  rcases Nat.lt_or_ge i j with hij | hge
  · exact Or.inl (hsorted i j hij hj hli hlj)
  · have hji : j < i := by omega
    exact Or.inr (hsorted j i hji hi hlj hli)

/-- Counterexample to C6 as stated: capacity 10, trace
`alloc 5; alloc (2^64 - 4); alloc 3` (no `free_to`/`reset`, so every
returned handle is live).  The second request wraps
`5 + (2^64 - 4) ≡ 1 (mod 2^64)`, is accepted, and rewinds `top` to 1;
the third handle `[1, 4)` overlaps the first `[0, 5)`. -/
theorem C6_counterexample :
    (arena_run 10 [arena_op.alloc 5, arena_op.alloc (2 ^ 64 - 4),
      arena_op.alloc 3]).handles.getD 0 (0, 0) = (0, 5) ∧
    (arena_run 10 [arena_op.alloc 5, arena_op.alloc (2 ^ 64 - 4),
      arena_op.alloc 3]).handles.getD 2 (0, 0) = (1, 3) ∧
    (arena_run 10 [arena_op.alloc 5, arena_op.alloc (2 ^ 64 - 4),
      arena_op.alloc 3]).live.getD 0 false = true ∧
    (arena_run 10 [arena_op.alloc 5, arena_op.alloc (2 ^ 64 - 4),
      arena_op.alloc 3]).live.getD 2 false = true ∧
    ¬ region_disjoint (0, 5) (1, 3) := by
  refine ⟨by decide, by decide, by decide, by decide, ?_⟩
  unfold region_disjoint
  omega

/-- Witness for C6: capacity 10, trace
`alloc 5; alloc 3; free_to(handle 1); alloc 2` — the surviving handles
`[0, 5)` and `[5, 7)` are disjoint. -/
theorem C6_no_live_alias_witness :
    region_disjoint
      ((arena_run 10 [arena_op.alloc 5, arena_op.alloc 3, arena_op.free_to 1,
        arena_op.alloc 2]).handles.getD 0 (0, 0))
      ((arena_run 10 [arena_op.alloc 5, arena_op.alloc 3, arena_op.free_to 1,
        arena_op.alloc 2]).handles.getD 2 (0, 0)) :=
  C6_no_live_alias 10
    [arena_op.alloc 5, arena_op.alloc 3, arena_op.free_to 1, arena_op.alloc 2]
    (by decide) 0 2 (by decide) (by decide) (by decide) (by decide) (by decide)

end EmbeddedDS
